import Mathlib

/-!
# Verification of handytail's line normalizer and match decision loop

Shallow embedding of the Go program `handytail` (files `main.go` for the
minimal variant and the extended variant's main file).  Lines are modelled
as lists of Unicode code points (`List Nat`); compiled regular expressions
are modelled by their matching function `List Nat → Bool`, since the regex
engine itself belongs to the Go standard library, not to this repository.
-/

namespace Handytail

/-- Go's `unicode.IsControl`: it consults the generated Latin-1
properties table, which carries the `pC` property on the C0 controls
0x00–0x1F, DEL 0x7F, the C1 controls 0x80–0x9F, and also on 0xAD (SOFT
HYPHEN — Unicode category Cf, which the table generator folds into `pC`
as the lone not-printable Cf code point); every rune above MaxLatin1
yields false. -/
def isControl (c : Nat) : Bool := c ≤ 31 || (127 ≤ c && c ≤ 159) || c == 173

/-- The Unicode control category Cc itself — C0 controls, DEL and the C1
controls — the set the spec's words "Unicode control category" name.  It
differs from Go's `unicode.IsControl` at exactly U+00AD. -/
def isUnicodeCc (c : Nat) : Bool := c ≤ 31 || (127 ≤ c && c ≤ 159)

/-- The loop body of `processLine` in `main.go` (identical in both
variants): scan the code points of the line left to right, carrying the
buffer `result`.  A backspace (code point 8) truncates the buffer by one
when it is non-empty; any other control character is skipped; every other
code point is appended. -/
def processGo (result : List Nat) : List Nat → List Nat
  | [] => result
  | c :: cs =>
    if c = 8 then
      processGo (if 0 < result.length then result.dropLast else result) cs
    else if isControl c then
      processGo result cs
    else
      processGo (result ++ [c]) cs

/-- `processLine` from `main.go`: run the scan starting from an empty
buffer and return the final buffer content. -/
def processLine (line : List Nat) : List Nat := processGo [] line

/-- The scan the spec's words describe, differing from the program's only
in its control set: exactly the Unicode control category Cc. -/
def ccScan (result : List Nat) : List Nat → List Nat
  | [] => result
  | c :: cs =>
    if c = 8 then
      ccScan (if 0 < result.length then result.dropLast else result) cs
    else if isUnicodeCc c then
      ccScan result cs
    else
      ccScan (result ++ [c]) cs

/-- The normalizer of the spec's wording (Cc-only control set), used to
compare the claimed behaviour with the program's. -/
def normalizeCc (line : List Nat) : List Nat := ccScan [] line

/-- Scanning a concatenation scans the first part and continues with the
resulting buffer. -/
theorem processGo_append (xs ys : List Nat) :
    ∀ buf, processGo buf (xs ++ ys) = processGo (processGo buf xs) ys := by
  induction xs with
  | nil => intro buf; rfl
  | cons c cs ih =>
    intro buf
    by_cases h8 : c = 8
    · simp only [List.cons_append, processGo, h8, if_pos rfl]
      exact ih _
    · by_cases hc : isControl c = true
      · simp only [List.cons_append, processGo, if_neg h8, hc, if_pos rfl]
        exact ih _
      · simp only [List.cons_append, processGo, if_neg h8, hc]
        exact ih _

/-- A control-character-free buffer stays control-character-free through
the scan: every code point of the output is either from the buffer or a
non-control code point of the input. -/
theorem processGo_noControl (xs : List Nat) :
    ∀ buf, (∀ c ∈ buf, isControl c = false) →
      ∀ c ∈ processGo buf xs, isControl c = false := by
  induction xs with
  | nil => intro buf hbuf c hc; exact hbuf c hc
  | cons a as ih =>
    intro buf hbuf c hc
    by_cases h8 : a = 8
    · simp only [processGo, h8, if_pos rfl] at hc
      refine ih _ ?_ c hc
      intro d hd
      by_cases hlen : 0 < buf.length
      · simp only [if_pos hlen] at hd
        exact hbuf d (List.dropLast_subset _ hd)
      · simp only [if_neg hlen] at hd
        exact hbuf d hd
    · by_cases hctl : isControl a = true
      · simp only [processGo, if_neg h8, hctl, if_pos rfl] at hc
        exact ih _ hbuf c hc
      · simp only [processGo, if_neg h8, hctl] at hc
        refine ih _ ?_ c hc
        intro d hd
        rcases List.mem_append.mp hd with h | h
        · exact hbuf d h
        · rcases List.mem_singleton.mp h with rfl
          exact Bool.not_eq_true _ ▸ hctl

/-- On an input with no control characters the scan appends everything. -/
theorem processGo_id (xs : List Nat) (hxs : ∀ c ∈ xs, isControl c = false) :
    ∀ buf, processGo buf xs = buf ++ xs := by
  induction xs with
  | nil => intro buf; simp [processGo]
  | cons a as ih =>
    intro buf
    have ha : isControl a = false := hxs a (List.mem_cons_self a as)
    have h8 : a ≠ 8 := by
      intro h; subst h; simp [isControl] at ha
    have hcf : ¬ isControl a = true := by simp [ha]
    simp only [processGo, if_neg h8, if_neg hcf]
    rw [ih (fun c hc => hxs c (List.mem_cons_of_mem a hc)) (buf ++ [a])]
    simp

/-- Every code point of a normalized line is a non-control code point. -/
theorem processLine_noControl (x : List Nat) :
    ∀ c ∈ processLine x, isControl c = false := by
  exact processGo_noControl x [] (by intro c hc; cases hc)

/-- The length of the buffer grows by at most one per scanned code point. -/
theorem processGo_length (xs : List Nat) :
    ∀ buf, (processGo buf xs).length ≤ buf.length + xs.length := by
  induction xs with
  | nil => intro buf; simp [processGo]
  | cons a as ih =>
    intro buf
    by_cases h8 : a = 8
    · simp only [processGo, h8, if_pos rfl]
      refine le_trans (ih _) ?_
      by_cases hlen : 0 < buf.length
      · simp only [if_pos hlen, List.length_dropLast, List.length_cons]
        omega
      · simp only [if_neg hlen, List.length_cons]
        omega
    · by_cases hctl : isControl a = true
      · simp only [processGo, if_neg h8, hctl, if_pos rfl]
        refine le_trans (ih _) ?_
        simp only [List.length_cons]
        omega
      · simp only [processGo, if_neg h8, hctl]
        refine le_trans (ih _) ?_
        simp only [List.length_append, List.length_cons, List.length_nil]
        omega

/-- A compiled pattern is modelled by its matching function on a line of
code points (`regexp.MatchString` performs an unanchored substring
search; its internals belong to the Go standard library). -/
def Matcher : Type := List Nat → Bool

/-- The `for _, pattern := range patterns { if pattern.MatchString(...) }`
loop of `main`: true iff some pattern in declared order matches, stopping
at the first match. -/
def firstMatch : List Matcher → List Nat → Bool
  | [], _ => false
  | p :: ps, line => if p line then true else firstMatch ps line

/-- Index-observing refinement of the same loop: the position of the first
pattern, in declared order, that matches the line. -/
def firstMatchIdx : List Matcher → List Nat → Option Nat
  | [], _ => none
  | p :: ps, line =>
    if p line then some 0 else (firstMatchIdx ps line).map (· + 1)

/-- The per-line decision of `main` (both variants): success patterns are
scanned first, the first match exiting with 0; only then failure patterns,
the first match exiting with 1; otherwise the line is consumed. -/
def decideLine (succ fail : List Matcher) (line : List Nat) : Option Nat :=
  if firstMatch succ line then some 0
  else if firstMatch fail line then some 1
  else none

/-- How the scanner loop ends when no decisive match fires: either end of
input, or a read error reported by `scanner.Err()`. -/
inductive ReadEnd where
  | eof : ReadEnd
  | readError : ReadEnd
deriving DecidableEq

/-- The minimal variant's `main` (`main.go`): process the successfully
read lines in order, exiting with the first decisive match; after the loop
a read error exits 2, and falling off the end of `main` yields status 0. -/
def runMinimal (succ fail : List Matcher) : List (List Nat) → ReadEnd → Nat
  | [], .eof => 0
  | [], .readError => 2
  | l :: ls, e =>
    match decideLine succ fail (processLine l) with
    | some c => c
    | none => runMinimal succ fail ls e

/-- The extended variant's `main`: identical loop, but end of input with
no match exits 3 (`EOF found but no matching lines were detected`). -/
def runExtended (succ fail : List Matcher) : List (List Nat) → ReadEnd → Nat
  | [], .eof => 3
  | [], .readError => 2
  | l :: ls, e =>
    match decideLine succ fail (processLine l) with
    | some c => c
    | none => runExtended succ fail ls e

/-- The extended variant's `main` with its standard-output effect made
explicit: unless `quiet` is set, each processed line is printed before the
pattern lists are consulted, so the result pairs the exit status with the
list of echoed lines. -/
def runExtendedEcho (quiet : Bool) (succ fail : List Matcher) :
    List (List Nat) → ReadEnd → Nat × List (List Nat)
  | [], .eof => (3, [])
  | [], .readError => (2, [])
  | l :: ls, e =>
    let pl := processLine l
    let out := if quiet then [] else [pl]
    match decideLine succ fail pl with
    | some c => (c, out)
    | none =>
      let rest := runExtendedEcho quiet succ fail ls e
      (rest.1, out ++ rest.2)

/-- The lines the extended variant echoes when `quiet` is off: every
processed line up to and including the decisive one. -/
def echoedLines (succ fail : List Matcher) : List (List Nat) → List (List Nat)
  | [] => []
  | l :: ls =>
    let pl := processLine l
    match decideLine succ fail pl with
    | some _ => [pl]
    | none => pl :: echoedLines succ fail ls

theorem firstMatch_iff (ps : List Matcher) (line : List Nat) :
    firstMatch ps line = true ↔ ∃ p ∈ ps, p line = true := by
  induction ps with
  | nil => simp [firstMatch]
  | cons p ps ih =>
    by_cases hp : p line = true
    · simp [firstMatch, hp]
    · simp only [firstMatch, if_neg hp, ih]
      constructor
      · rintro ⟨q, hq, hql⟩; exact ⟨q, List.mem_cons_of_mem p hq, hql⟩
      · rintro ⟨q, hq, hql⟩
        rcases List.mem_cons.mp hq with rfl | hq
        · exact absurd hql hp
        · exact ⟨q, hq, hql⟩

theorem firstMatchIdx_least (ps : List Matcher) (line : List Nat) :
    ∀ i, firstMatchIdx ps line = some i →
      (∃ p, ps.get? i = some p ∧ p line = true) ∧
      ∀ j, j < i → ∀ q, ps.get? j = some q → q line = false := by
  induction ps with
  | nil => intro i h; simp [firstMatchIdx] at h
  | cons p ps ih =>
    intro i h
    by_cases hp : p line = true
    · simp only [firstMatchIdx, if_pos hp, Option.some.injEq] at h
      subst h
      refine ⟨⟨p, rfl, hp⟩, ?_⟩
      intro j hj q hq
      omega
    · simp only [firstMatchIdx, if_neg hp, Option.map_eq_some'] at h
      obtain ⟨i', hi', rfl⟩ := h
      obtain ⟨⟨q, hq, hql⟩, hleast⟩ := ih i' hi'
      refine ⟨⟨q, by simpa using hq, hql⟩, ?_⟩
      intro j hj r hr
      cases j with
      | zero =>
        simp only [List.get?] at hr
        cases hr
        exact Bool.not_eq_true _ ▸ hp
      | succ j' =>
        simp only [List.get?] at hr
        exact hleast j' (by omega) r hr

theorem firstMatch_eq_false (ps : List Matcher) (line : List Nat) :
    firstMatch ps line = false ↔ ∀ p ∈ ps, p line = false := by
  constructor
  · intro h p hp
    cases hpl : p line with
    | false => rfl
    | true =>
      have := (firstMatch_iff ps line).mpr ⟨p, hp, hpl⟩
      rw [h] at this
      cases this
  · intro h
    cases hfm : firstMatch ps line with
    | false => rfl
    | true =>
      obtain ⟨p, hp, hpl⟩ := (firstMatch_iff ps line).mp hfm
      rw [h p hp] at hpl
      cases hpl

theorem runExtended_eq (succ fail : List Matcher) (lines : List (List Nat))
    (e : ReadEnd) :
    runExtended succ fail lines e =
      (match lines.findSome? (fun l => decideLine succ fail (processLine l)) with
       | some c => c
       | none => match e with | .eof => 3 | .readError => 2) := by
  induction lines with
  | nil => cases e <;> rfl
  | cons l ls ih =>
    simp only [List.findSome?]
    cases h : decideLine succ fail (processLine l) with
    | some c => simp [runExtended, h]
    | none =>
      simp only [runExtended, h]
      exact ih

theorem runMinimal_eq (succ fail : List Matcher) (lines : List (List Nat))
    (e : ReadEnd) :
    runMinimal succ fail lines e =
      (match lines.findSome? (fun l => decideLine succ fail (processLine l)) with
       | some c => c
       | none => match e with | .eof => 0 | .readError => 2) := by
  induction lines with
  | nil => cases e <;> rfl
  | cons l ls ih =>
    simp only [List.findSome?]
    cases h : decideLine succ fail (processLine l) with
    | some c => simp [runMinimal, h]
    | none =>
      simp only [runMinimal, h]
      exact ih

/-- C1 counterexample: U+00AD (soft hyphen) is not in the Unicode
control category, and the claimed scan (whose control set is that
category) appends it, yet the program discards it — the claim is false
of the program at the one-code-point line U+00AD. -/
theorem processLine_soft_hyphen_counterexample :
    isUnicodeCc 173 = false ∧ normalizeCc [173] = [173] ∧
      processLine [173] = [] := by decide

/-- C1 as amended: for every raw input line, `processLine` scans the code
points left to right maintaining an output buffer: a backspace (code
point 8) removes the last code point of the buffer when it is non-empty
and is a no-op otherwise; every other code point of Go's
`unicode.IsControl` set — the Unicode control category plus U+00AD — is
discarded; every code point outside that set is appended unchanged; the
result is the final buffer content (at any prefix `xs` the buffer holds
`processLine xs`, and the empty input yields the empty buffer). -/
theorem processLine_scan_characterization :
    processLine [] = [] ∧
    ∀ (xs : List Nat) (c : Nat),
      processLine (xs ++ [c]) =
        (if c = 8 then
          (if 0 < (processLine xs).length then (processLine xs).dropLast
           else processLine xs)
         else if isControl c then processLine xs
         else processLine xs ++ [c]) := by
  refine ⟨rfl, ?_⟩
  intro xs c
  show processGo [] (xs ++ [c]) = _
  rw [processGo_append]
  by_cases h8 : c = 8
  · simp [processGo, h8, processLine]
  · by_cases hc : isControl c = true
    · simp [processGo, h8, hc, processLine]
    · simp [processGo, h8, hc, processLine]

/-- C2: the per-line decision scans the success list in declared order
and the first match yields status 0 with no further pattern consulted (the
firing index is the least matching index); only when no success pattern
matches does a failure match yield status 1 — so a line matching both a
success and a failure pattern always yields 0, never 1. -/
theorem decideLine_order_and_precedence (succ fail : List Matcher)
    (line : List Nat) :
    (decideLine succ fail line = some 0 ↔ ∃ p ∈ succ, p line = true) ∧
    (decideLine succ fail line = some 1 ↔
      (∀ p ∈ succ, p line = false) ∧ ∃ p ∈ fail, p line = true) ∧
    (∀ i, firstMatchIdx succ line = some i →
      (∃ p, succ.get? i = some p ∧ p line = true) ∧
      ∀ j, j < i → ∀ q, succ.get? j = some q → q line = false) := by
  refine ⟨?_, ?_, firstMatchIdx_least succ line⟩
  · cases hs : firstMatch succ line with
    | true => simp [decideLine, hs, ← firstMatch_iff, hs]
    | false =>
      cases hf : firstMatch fail line with
      | true => simp [decideLine, hs, hf, ← firstMatch_iff, hs]
      | false => simp [decideLine, hs, hf, ← firstMatch_iff, hs]
  · cases hs : firstMatch succ line with
    | true =>
      simp [decideLine, hs, ← firstMatch_eq_false, hs]
    | false =>
      cases hf : firstMatch fail line with
      | true => simp [decideLine, hs, hf, ← firstMatch_eq_false,
          ← firstMatch_iff, hs, hf]
      | false => simp [decideLine, hs, hf, ← firstMatch_iff, hf]

theorem decideLine_order_and_precedence_witness :
    decideLine [fun l => l == [65]] [fun l => l == [65]] [65] = some 0 ∧
    (∃ p, ([fun l => l == [65]] : List Matcher).get? 0 = some p ∧
      p [65] = true) :=
  ⟨((decideLine_order_and_precedence [fun l => l == [65]]
      [fun l => l == [65]] [65]).1).mpr
      ⟨fun l => l == [65], List.mem_singleton.mpr rfl, by decide⟩,
   ((decideLine_order_and_precedence [fun l => l == [65]]
      [fun l => l == [65]] [65]).2.2 0 (by decide)).1⟩

/-- C3: the exit status follows the single-run state machine — the first
decisive line's code (0 for a success match, 1 for a failure match with no
success on that line) when one exists, otherwise 2 on a read error, and on
end of input 3 in the extended variant and 0 in the minimal variant. -/
theorem run_exit_status_state_machine (succ fail : List Matcher)
    (lines : List (List Nat)) (e : ReadEnd) :
    (runExtended succ fail lines e =
      (match lines.findSome? (fun l => decideLine succ fail (processLine l)) with
       | some c => c
       | none => match e with | .eof => 3 | .readError => 2)) ∧
    (runMinimal succ fail lines e =
      (match lines.findSome? (fun l => decideLine succ fail (processLine l)) with
       | some c => c
       | none => match e with | .eof => 0 | .readError => 2)) :=
  ⟨runExtended_eq succ fail lines e, runMinimal_eq succ fail lines e⟩

/-- C4: normalization is idempotent — a second pass is the identity on
any normalizer output, because that output contains no control characters
(in particular no backspaces). -/
theorem processLine_idempotent (x : List Nat) :
    processLine (processLine x) = processLine x := by
  show processGo [] (processLine x) = processLine x
  rw [processGo_id (processLine x) (processLine_noControl x) []]
  simp

/-- C6: the normalized line never has more code points than the raw
line. -/
theorem processLine_length_le (x : List Nat) :
    (processLine x).length ≤ x.length := by
  have h := processGo_length x []
  simpa [processLine] using h

/-- C7 counterexample: the line consisting of the single code point
U+00AD contains no code point of the Unicode control category (and no
backspace), yet normalization is not the identity on it. -/
theorem processLine_not_id_on_soft_hyphen :
    (∀ c ∈ [173], isUnicodeCc c = false) ∧ processLine [173] ≠ [173] := by
  decide

/-- C7 as amended: on an input with no code point of Go's
`unicode.IsControl` set — the Unicode control category plus U+00AD, hence
in particular no backspace — normalization is the identity. -/
theorem processLine_id_of_noControl (x : List Nat)
    (h : ∀ c ∈ x, isControl c = false) : processLine x = x := by
  show processGo [] x = x
  rw [processGo_id x h []]
  simp

theorem processLine_id_of_noControl_witness :
    (∀ c ∈ [104, 101, 108, 108, 111], isControl c = false) ∧
      processLine [104, 101, 108, 108, 111] = [104, 101, 108, 108, 111] :=
  ⟨by decide, processLine_id_of_noControl [104, 101, 108, 108, 111] (by decide)⟩

/-- C8: the two variants share `processLine` and the per-line decision,
so on every input stream and configuration either they exit with the
same status (whenever some line produces a decisive match, and also on a
read error), or no line was decisive and input ended at EOF, where the
minimal variant falls through with 0 and the extended one exits 3. -/
theorem variants_agree_until_eof (succ fail : List Matcher)
    (lines : List (List Nat)) (e : ReadEnd) :
    runMinimal succ fail lines e = runExtended succ fail lines e ∨
    (lines.findSome? (fun l => decideLine succ fail (processLine l)) = none ∧
      e = ReadEnd.eof ∧ runMinimal succ fail lines e = 0 ∧
      runExtended succ fail lines e = 3) := by
  rw [runMinimal_eq, runExtended_eq]
  cases h : lines.findSome? (fun l => decideLine succ fail (processLine l)) with
  | some c => left; rfl
  | none =>
    cases e with
    | eof => right; exact ⟨rfl, rfl, rfl, rfl⟩
    | readError => left; rfl

/-- C9: the quiet flag never changes the decision — for every quiet
setting the extended run's exit status equals the status computed without
the output effect, and quiet controls only the echo: no line is printed
when quiet is set, and with quiet off exactly the processed lines up to
and including the decisive one are printed before matching. -/
theorem quiet_flag_noninterference (quiet : Bool) (succ fail : List Matcher)
    (lines : List (List Nat)) (e : ReadEnd) :
    (runExtendedEcho quiet succ fail lines e).1 = runExtended succ fail lines e ∧
    (runExtendedEcho quiet succ fail lines e).2 =
      (if quiet then [] else echoedLines succ fail lines) := by
  induction lines with
  | nil =>
    cases e <;> cases quiet <;> simp [runExtendedEcho, runExtended, echoedLines]
  | cons l ls ih =>
    simp only [runExtendedEcho, runExtended, echoedLines]
    cases h : decideLine succ fail (processLine l) with
    | some c => cases quiet <;> simp [h]
    | none => cases quiet <;> simp [h, ih.1, ih.2]

/-- `type RegexSlice []*regexp.Regexp` from `main.go`; the element type is
abstract because compiled regexes live in the Go standard library. -/
abbrev RegexSlice (α : Type) : Type := List α

/-- `RegexSlice.Set` from `main.go`: compile the pattern string; on a
compilation error return an error naming the offending pattern and the
underlying syntax error without touching the slice; on success append the
compiled pattern.  The compiler (`regexp.Compile`, Go standard library) is
passed in abstractly. -/
def RegexSlice.Set {α : Type} (compile : String → Except String α)
    (r : RegexSlice α) (value : String) : Except String (RegexSlice α) :=
  match compile value with
  | .error err => .error ("invalid regex pattern '" ++ value ++ "': " ++ err)
  | .ok compiled => .ok (r ++ [compiled])

/-- `flag.Var`'s repeated invocation of `Set`, one call per occurrence of
the flag on the command line: the first failing pattern stops parsing with
its error. -/
def setAll {α : Type} (compile : String → Except String α) :
    List String → RegexSlice α → Except String (RegexSlice α)
  | [], r => .ok r
  | v :: vs, r =>
    match RegexSlice.Set compile r v with
    | .error e => .error e
    | .ok r2 => setAll compile vs r2

/-- The extended program from configuration to exit status.  Modelled
from the spec for the flag-parsing step: `flag.Parse` (Go standard
library, `ExitOnError` mode) exits with status 2 when a flag's `Set`
returns an error, before the scanner reads any input; otherwise the run
proceeds on the compiled pattern lists. -/
def programExtended {α : Type} (compile : String → Except String α)
    (matcherOf : α → List Nat → Bool) (succArgs failArgs : List String)
    (lines : List (List Nat)) (e : ReadEnd) : Nat :=
  match setAll compile succArgs [] with
  | .error _ => 2
  | .ok succ =>
    match setAll compile failArgs [] with
    | .error _ => 2
    | .ok fail => runExtended (succ.map matcherOf) (fail.map matcherOf) lines e

theorem setAll_error_of_mem {α : Type} (compile : String → Except String α)
    (v msg : String) (h : compile v = .error msg) :
    ∀ (args : List String) (r : RegexSlice α), v ∈ args →
      ∃ m, setAll compile args r = .error m := by
  intro args
  induction args with
  | nil => intro r hv; cases hv
  | cons a as ih =>
    intro r hv
    cases hs : RegexSlice.Set compile r a with
    | error m => exact ⟨m, by simp [setAll, hs]⟩
    | ok r2 =>
      rcases List.mem_cons.mp hv with rfl | hv'
      · exfalso
        simp [RegexSlice.Set, h] at hs
      · obtain ⟨m, hm⟩ := ih r2 hv'
        exact ⟨m, by simp [setAll, hs, hm]⟩

/-- C5: an invalid pattern makes `Set` fail with an error message that
contains both the offending pattern text and the underlying syntax
error, the pattern is added to no list, and the program exits during
configuration — with status 2, independent of the input stream, so no
input line is ever consulted. -/
theorem set_invalid_pattern_fail_fast {α : Type}
    (compile : String → Except String α) (v msg : String)
    (h : compile v = .error msg) :
    (∀ r : RegexSlice α,
      RegexSlice.Set compile r v =
        .error ("invalid regex pattern '" ++ v ++ "': " ++ msg) ∧
      (∃ a b, "invalid regex pattern '" ++ v ++ "': " ++ msg = a ++ v ++ b) ∧
      (∃ a b, "invalid regex pattern '" ++ v ++ "': " ++ msg = a ++ msg ++ b) ∧
      ∀ r2 : RegexSlice α, RegexSlice.Set compile r v ≠ .ok r2) ∧
    (∀ (args : List String) (r : RegexSlice α), v ∈ args →
      ∃ m, setAll compile args r = .error m) ∧
    ∀ (matcherOf : α → List Nat → Bool) (succArgs failArgs : List String),
      v ∈ succArgs →
      ∀ (lines lines' : List (List Nat)) (e e' : ReadEnd),
        programExtended compile matcherOf succArgs failArgs lines e = 2 ∧
        programExtended compile matcherOf succArgs failArgs lines e =
          programExtended compile matcherOf succArgs failArgs lines' e' := by
  refine ⟨?_, setAll_error_of_mem compile v msg h, ?_⟩
  · intro r
    refine ⟨by simp [RegexSlice.Set, h], ⟨"invalid regex pattern '",
      "': " ++ msg, by simp [String.append_assoc]⟩,
      ⟨"invalid regex pattern '" ++ v ++ "': ", "",
        by simp [String.append_assoc]⟩, ?_⟩
    intro r2 hr2
    simp [RegexSlice.Set, h] at hr2
  · intro matcherOf succArgs failArgs hv lines lines' e e'
    obtain ⟨m, hm⟩ := setAll_error_of_mem compile v msg h succArgs [] hv
    constructor <;> simp [programExtended, hm]

theorem set_invalid_pattern_fail_fast_witness :
    ((fun s => if s = "[abc" then (.error "missing closing ]" :
        Except String Unit) else .ok ()) "[abc" = .error "missing closing ]") ∧
    RegexSlice.Set (fun s => if s = "[abc" then (.error "missing closing ]" :
        Except String Unit) else .ok ()) [] "[abc" =
      .error ("invalid regex pattern '" ++ "[abc" ++ "': " ++
        "missing closing ]") ∧
    programExtended (fun s => if s = "[abc" then (.error "missing closing ]" :
        Except String Unit) else .ok ()) (fun _ _ => true) ["[abc"] []
      [[66]] ReadEnd.eof = 2 :=
  ⟨by simp,
   ((set_invalid_pattern_fail_fast
      (fun s => if s = "[abc" then (.error "missing closing ]" :
        Except String Unit) else .ok ()) "[abc" "missing closing ]"
      (by simp)).1 []).1,
   ((set_invalid_pattern_fail_fast
      (fun s => if s = "[abc" then (.error "missing closing ]" :
        Except String Unit) else .ok ()) "[abc" "missing closing ]"
      (by simp)).2.2 (fun _ _ => true) ["[abc"] []
      (List.mem_singleton.mpr rfl) [[66]] [[66]] ReadEnd.eof ReadEnd.eof).1⟩

/-- Modelled from the spec: the Go regular-expression engine (standard
library `regexp`, outside this repository) compiles the empty pattern
successfully (the repository test `TestRegexSliceSet` records "empty
pattern is valid") — a metacharacter-free pattern is represented by its
code-point list. -/
def literalCompile (value : String) : Except String (List Nat) :=
  .ok (value.data.map Char.toNat)

/-- Modelled from the spec: unanchored substring search — the matcher of
a compiled metacharacter-free pattern matches a line iff the pattern
occurs in it literally at some position. -/
def literalMatch (pat : List Nat) : List Nat → Bool
  | [] => pat.isPrefixOf []
  | c :: rest => pat.isPrefixOf (c :: rest) || literalMatch pat rest

/-- C10: the empty string is accepted as a pattern and appended to the
slice, the empty pattern matches every line (including the empty one),
and with the empty pattern as a success pattern the program exits with
status 0 on the very first input line, in both variants. -/
theorem empty_pattern_matches_first_line :
    (∀ r : RegexSlice (List Nat),
      RegexSlice.Set literalCompile r "" = .ok (r ++ [[]])) ∧
    (∀ line : List Nat, literalMatch [] line = true) ∧
    ∀ (fail : List Matcher) (l : List Nat) (ls : List (List Nat)) (e : ReadEnd),
      runExtended [literalMatch []] fail (l :: ls) e = 0 ∧
      runMinimal [literalMatch []] fail (l :: ls) e = 0 := by
  have hmatch : ∀ line : List Nat, literalMatch [] line = true := by
    intro line
    cases line with
    | nil => rfl
    | cons c rest => simp [literalMatch, List.isPrefixOf]
  refine ⟨fun r => rfl, hmatch, ?_⟩
  intro fail l ls e
  have hdec : decideLine [literalMatch []] fail (processLine l) = some 0 := by
    simp [decideLine, firstMatch, hmatch]
  constructor
  · simp [runExtended, hdec]
  · simp [runMinimal, hdec]

end Handytail
